import Mathlib

/-!
Verification development for the themis analysis library (`themis/analyze.py`,
`themis/annotate.py`).

Tables are embedded shallowly as lists of typed records.  A collated row
(`CRow`) may be missing its judgment and frequency fields (pandas `NaN`),
reflected by `Option` fields; `drop_missing` / `dropna` keep exactly the
complete rows, yielding judged rows (`JRow`).

Pandas label-based alignment (`set_index(QUESTION)` followed by `.loc`) is
embedded with `List.find?` lookups.  This coincides with the pandas behaviour
under the collated-table invariant that each system answers a question at most
once; the theorems that depend on lookups carry this uniqueness hypothesis
explicitly.
-/

namespace Themis

/-- A collated row as read from a collated CSV file: question, system, answer,
confidence, and possibly-missing in-purview / correct / frequency fields. -/
structure CRow where
  question : String
  system : String
  answer : String
  confidence : ℚ
  in_purview : Option Bool
  correct : Option Bool
  frequency : Option Int
deriving DecidableEq, Repr

/-- A fully judged collated row: every field present. -/
structure JRow where
  question : String
  system : String
  answer : String
  confidence : ℚ
  in_purview : Bool
  correct : Bool
  frequency : Int
deriving DecidableEq, Repr

/-- A row is complete when none of its optional fields is missing. -/
def CRow.toJRow? : CRow → Option JRow
  | ⟨q, s, a, c, some pv, some co, some f⟩ => some ⟨q, s, a, c, pv, co, f⟩
  | _ => none

/-- `drop_missing` (analyze.py line 361): drop the rows with missing
information; the logging is an observable side effect only. `dropna` on a
collated table behaves identically. -/
def drop_missing (t : List CRow) : List JRow := t.filterMap CRow.toJRow?

/-- `systems_data[systems_data[SYSTEM] == name]`: a single system's rows. -/
def systemRows (data : List JRow) (name : String) : List JRow :=
  data.filter (fun r => r.system == name)

/-- The question index of a system's table (`set_index(QUESTION)`). -/
def questionsOf (rows : List JRow) : List String := rows.map (·.question)

/-- The confidence column of a system's table. -/
def confsOf (data : List JRow) (name : String) : List ℚ :=
  (systemRows data name).map (·.confidence)

/-- `Series.rank(pct=True)` with the default `method="average"`: the average
ordinal rank of `c` among `confs` (ties averaged), divided by the number of
entries.  For `c` occurring in `confs` this lies in `(0, 1]`. -/
def pctRank (confs : List ℚ) (c : ℚ) : ℚ :=
  ((confs.countP (fun x => decide (x < c)) : ℚ)
    + ((confs.countP (fun x => decide (x = c)) : ℚ) + 1) / 2) / (confs.length : ℚ)

/-- `DataFrame.idxmax(axis=1)` on a row of labelled values: the first label
achieving the maximal value, paired with that value. -/
def idxmax : List (String × ℚ) → Option (String × ℚ)
  | [] => none
  | p :: rest =>
    match idxmax rest with
    | none => some p
    | some m => some (if m.2 > p.2 then m else p)

/-- `DataFrame.idxmin(axis=1)`: the first label achieving the minimal value,
paired with that value. -/
def idxmin : List (String × ℚ) → Option (String × ℚ)
  | [] => none
  | p :: rest =>
    match idxmin rest with
    | none => some p
    | some m => some (if m.2 < p.2 then m else p)

/-- `functools.reduce(lambda m, i: m.intersection(i), indices)` on question
indices: successively filter the first index by membership in the others. -/
def indexIntersection : List (List String) → List String
  | [] => []
  | qs :: rest => rest.foldl (fun acc s => acc.filter (fun q => s.contains q)) qs

/-- Map an `Option`-valued function over a list, failing if any application
fails (the plumbing for a pipeline in which any step may raise). -/
def listMapOpt (f : α → Option β) : List α → Option (List β)
  | [] => some []
  | a :: l =>
    match f a, listMapOpt f l with
    | some b, some bs => some (b :: bs)
    | _, _ => none

/-- An oracle row: a collated row plus the contributing system selected to
answer the question.  The answer is `Option`al because the final positional
answer assignment in the source can leave it missing (`NaN`). -/
structure ORow where
  question : String
  system : String
  answering_system : String
  answer : Option String
  confidence : ℚ
  in_purview : Bool
  correct : Bool
  frequency : Int
deriving DecidableEq, Repr

/-- The named systems extracted from the collated data, in name order
(`oracle_combination` lines 265-270). -/
def oracleSystems (data : List JRow) (names : List String) :
    List (String × List JRow) :=
  names.map (fun n => (n, systemRows data n))

/-- The questions asked to all the named systems (`oracle_combination`
line 272). -/
def oracleQuestions (data : List JRow) (names : List String) : List String :=
  indexIntersection ((oracleSystems data names).map (fun p => questionsOf p.2))

/-- Look a question up in one named system: the system name, its full table
(for the percentile denominator), and its row for the question. -/
def systemEntry (q : String) (p : String × List JRow) :
    Option (String × List JRow × JRow) :=
  (p.2.find? (fun r => r.question == q)).map (fun r => (p.1, p.2, r))

/-- One oracle row, before answers are attached (`oracle_combination` lines
274-292): purview is the AND and correctness the OR of the contributing
systems' judgments; the confidence and answering system come from the
maximal percentile rank when the oracle is correct and from the minimal one
otherwise; the frequency is copied from the first system's row. -/
def buildRow (systems : List (String × List JRow)) (oracleName : String)
    (q : String) : Option ORow :=
  match listMapOpt (systemEntry q) systems with
  | none => none
  | some entries =>
    match entries with
    | [] => none
    | e0 :: _ =>
      let pairs := entries.map
        (fun e => (e.1, pctRank (e.2.1.map (·.confidence)) e.2.2.confidence))
      let pv := entries.all (fun e => e.2.2.in_purview)
      let cor := entries.any (fun e => e.2.2.correct)
      match (if cor then idxmax pairs else idxmin pairs) with
      | none => none
      | some sel =>
        some { question := q, system := oracleName, answering_system := sel.1,
               answer := none, confidence := sel.2, in_purview := pv,
               correct := cor, frequency := e0.2.2.frequency }

/-- The final answer assignment (`oracle_combination` lines 293-296): the
merge result's answer column is assigned to the oracle rows positionally
(index alignment of two fresh range indices); a missing position yields a
missing answer. -/
def attachAnswers : List ORow → List String → List ORow
  | [], _ => []
  | o :: rest, [] => { o with answer := none } :: attachAnswers rest []
  | o :: rest, a :: answers => { o with answer := some a } :: attachAnswers rest answers

/-- `oracle_combination(systems_data, system_names, oracle_name)`
(analyze.py lines 238-298).  `none` models the exceptions the source raises:
`reduce` over an empty sequence of names (`TypeError`), the per-system and
final `log_correct` statistics on an empty table (`ZeroDivisionError`).
The answer column of the result is produced by
`pandas.merge(systems_data, oracle, left_on=[QUESTION, SYSTEM],
right_on=[QUESTION, ANSWERING_SYSTEM])[ANSWER]`: the matching rows of
`systems_data` in their original order, assigned positionally. -/
def oracle_combination (t : List CRow) (names : List String)
    (oracleName : String) : Option (List ORow) :=
  let data := drop_missing t
  let systems := oracleSystems data names
  if names.isEmpty then none
  else if systems.any (fun p => p.2.isEmpty) then none
  else
    let questions := oracleQuestions data names
    if questions.isEmpty then none
    else
      match listMapOpt (buildRow systems oracleName) questions with
      | none => none
      | some rows =>
        let answers := (data.filter (fun r =>
          rows.any (fun o => o.question == r.question
            && o.answering_system == r.system))).map (fun r => r.answer)
        some (attachAnswers rows answers)

/-- A row of the `system_similarity` result: a pair of systems with the count
and percentage of shared questions they answered identically. -/
structure SimRow where
  system_1 : String
  system_2 : String
  same_answer : Nat
  same_answer_pct : ℚ
deriving DecidableEq, Repr

/-- `sort_values()` on a column of strings. -/
def sortStrings (l : List String) : List String :=
  l.mergeSort (fun a b => decide (a ≤ b))

/-- `itertools.combinations(systems, 2)`: each unordered pair once, in list
order. -/
def pairsOf : List String → List (String × String)
  | [] => []
  | x :: rest => (rest.map (fun y => (x, y))) ++ pairsOf rest

/-- `pandas.merge(data_x, data_y, on=QUESTION)`: the inner join of two row
lists on the question column, ordered by the left rows, each matched against
the matching right rows in their order. -/
def joinOnQuestion (dx dy : List JRow) : List (JRow × JRow) :=
  dx.flatMap (fun rx =>
    (dy.filter (fun ry => ry.question == rx.question)).map (fun ry => (rx, ry)))

/-- The distinct systems of a table, sorted
(`systems_data[SYSTEM].drop_duplicates().sort_values()`; also the group keys
of `groupby(SYSTEM)`). -/
def presentSystems (data : List JRow) : List String :=
  sortStrings (data.map (·.system)).dedup

/-- One iteration of the `system_similarity` loop (analyze.py lines 67-76)
for a pair of systems: `none` models the `ZeroDivisionError` raised by
`100.0 * same_answer / n` when the two systems share no question. -/
def simPair (data : List JRow) (p : String × String) : Option SimRow :=
  let m := joinOnQuestion (systemRows data p.1) (systemRows data p.2)
  if m.length = 0 then none
  else
    let same := (m.filter (fun rr => rr.1.answer == rr.2.answer)).length
    some ⟨p.1, p.2, same, 100 * (same : ℚ) / (m.length : ℚ)⟩

/-- `system_similarity(systems_data)` (analyze.py lines 54-78). -/
def system_similarity (t : List CRow) : Option (List SimRow) :=
  let data := drop_missing t
  listMapOpt (simPair data) (pairsOf (presentSystems data))

/-- A row of the `compare_systems` result: question, frequency and the two
systems' answers and confidences. -/
structure CmpRow where
  question : String
  frequency : Int
  answer_x : String
  confidence_x : ℚ
  answer_y : String
  confidence_y : ℚ
deriving DecidableEq, Repr

/-- The `compare_systems` output ordering: confidence of system x descending,
then frequency descending, then question ascending. -/
def cmpRowLe (a b : CmpRow) : Bool :=
  decide (b.confidence_x < a.confidence_x) ||
    (a.confidence_x == b.confidence_x &&
      (decide (b.frequency < a.frequency) ||
        (a.frequency == b.frequency && decide (a.question ≤ b.question))))

/-- The complete rows judged in purview
(`drop_missing` followed by `systems_data[systems_data[IN_PURVIEW]]`). -/
def purviewRows (t : List CRow) : List JRow :=
  (drop_missing t).filter (fun r => r.in_purview)

/-- The row predicate of `compare_systems`: for `"better"`, system x correct
and system y incorrect; for `"worse"` the mirror. -/
def cmpSelector (comparison_type : String) (p : JRow × JRow) : Bool :=
  if comparison_type = "better" then p.1.correct && !p.2.correct
  else !p.1.correct && p.2.correct

/-- `compare_systems(systems_data, x, y, comparison_type)` (analyze.py lines
81-125).  The left join of system x on system y followed by `dropna()` is the
inner join on question.  `none` models the `ValueError` on an unknown
comparison type and the `ZeroDivisionError` of `100.0 * m / n` when the two
systems share no in-purview question. -/
def compare_systems (t : List CRow) (x y comparison_type : String) :
    Option (List CmpRow) :=
  let data := purviewRows t
  let joined := joinOnQuestion (systemRows data x) (systemRows data y)
  if comparison_type = "better" ∨ comparison_type = "worse" then
    if joined.length = 0 then none
    else
      let d := joined.filter (cmpSelector comparison_type)
      some ((d.map (fun p =>
        CmpRow.mk p.1.question p.1.frequency p.1.answer p.1.confidence
          p.2.answer p.2.confidence)).mergeSort cmpRowLe)
  else none

/-- A pandas float as produced by dividing two integer counts: a finite
value, `NaN` (0/0) or `inf` (positive/0). -/
inductive PctVal where
  | nan : PctVal
  | inf : PctVal
  | val : ℚ → PctVal
deriving DecidableEq, Repr

/-- `num / den * 100.0` on integer count columns, with the pandas/numpy
division-by-zero convention. -/
def pctDiv (num den : Nat) : PctVal :=
  if den = 0 then (if num = 0 then PctVal.nan else PctVal.inf)
  else PctVal.val ((num : ℚ) / (den : ℚ) * 100)

/-- A row of the `analyze_answers` summary. -/
structure SummaryRow where
  system : String
  total : Nat
  unique : Nat
  in_purview : Nat
  in_purview_pct : ℚ
  correct : Nat
  correct_pct : PctVal
deriving DecidableEq, Repr

/-- The descending order on percentage values used by
`sort_values(correct_percent, ascending=False)`: larger values first, `NaN`
last. -/
def pctGe (a b : PctVal) : Bool :=
  match a, b with
  | _, PctVal.nan => true
  | PctVal.nan, _ => false
  | PctVal.inf, _ => true
  | _, PctVal.inf => false
  | PctVal.val x, PctVal.val y => decide (y ≤ x)

/-- The aggregates of one `groupby(SYSTEM)` group (analyze.py lines 150-156):
answered count, distinct answers, in-purview and correct counts, and the two
percentages. -/
def summaryRowFor (data : List JRow) (s : String) : SummaryRow :=
  let g := systemRows data s
  let pv := g.countP (fun r => r.in_purview)
  let cor := g.countP (fun r => r.correct)
  { system := s, total := g.length, unique := (g.map (·.answer)).dedup.length,
    in_purview := pv, in_purview_pct := (pv : ℚ) / (g.length : ℚ) * 100,
    correct := cor, correct_pct := pctDiv cor pv }

/-- The optional frequency-band filters of `analyze_answers`: keep rows with
frequency at most `freq_le` and rows with frequency strictly above
`freq_gr`. -/
def freqFilter (data : List JRow) (freq_le freq_gr : Option Int) : List JRow :=
  let d1 := match freq_le with
    | some v => data.filter (fun r => decide (r.frequency ≤ v))
    | none => data
  match freq_gr with
    | some v => d1.filter (fun r => decide (v < r.frequency))
    | none => d1

/-- `analyze_answers(systems_data, freq_le, freq_gr)` (analyze.py lines
128-158): concatenate the tables, drop incomplete rows, filter by frequency,
aggregate per system and sort by correct percentage descending.  `none`
models the `ValueError` `pandas.concat` raises on an empty list of tables. -/
def analyze_answers (tables : List (List CRow)) (freq_le freq_gr : Option Int) :
    Option (List SummaryRow) :=
  if tables.isEmpty then none
  else
    let data := freqFilter (drop_missing tables.flatten) freq_le freq_gr
    some (((presentSystems data).map (summaryRowFor data)).mergeSort
      (fun a b => pctGe a.correct_pct b.correct_pct))

/-- A question/answer pair with confidence as produced by a Q&A system. -/
structure QARow where
  question : String
  answer : String
  confidence : ℚ
deriving DecidableEq, Repr

/-- A judgment record: question, answer, in purview, correct. -/
structure JudgRow where
  question : String
  answer : String
  in_purview : Bool
  correct : Bool
deriving DecidableEq, Repr

/-- A question-frequency record. -/
structure FreqRow where
  question : String
  frequency : Int
deriving DecidableEq, Repr

/-- A collated output row: the qa pair enriched with possibly-missing
frequency and judgment fields (left joins). -/
structure CollOut where
  question : String
  answer : String
  confidence : ℚ
  frequency : Option Int
  in_purview : Option Bool
  correct : Option Bool
deriving DecidableEq, Repr

/-- `str.replace("\n", "")` on answer text: remove every newline
character. -/
def stripNewlines (s : String) : String :=
  String.mk (s.data.filter (fun c => !(c == Char.ofNat 10)))

/-- The answer key the judgments are joined on: the system answer with
newlines stripped when `remove_newlines` is set, the raw answer otherwise. -/
def joinKey (remove_newlines : Bool) (a : String) : String :=
  if remove_newlines then stripNewlines a else a

/-- `pandas.merge(qa_pairs, question_frequencies, on=QUESTION, how="left")`:
each qa row matched with its frequency rows, or kept with a missing
frequency. -/
def mergeFreqLeft (qa : List QARow) (freqs : List FreqRow) :
    List (QARow × Option Int) :=
  qa.flatMap (fun r =>
    match freqs.filter (fun f => f.question == r.question) with
    | [] => [(r, none)]
    | fs => fs.map (fun f => (r, some f.frequency)))

/-- `add_judgments_and_frequencies_to_qa_pairs(qa_pairs, judgments,
question_frequencies, remove_newlines)` (analyze.py lines 325-358).  The
frequency is attached by a left join on question; then, when
`remove_newlines` is set, the answer column is replaced by the answer with
newlines stripped (the original text is kept aside in a temporary column),
the judgments are left-joined on question and the stripped answer, and the
original answer text is restored.  The judgment side of the join is used
as-is. -/
def add_judgments_and_frequencies_to_qa_pairs (qa_pairs : List QARow)
    (judgments : List JudgRow) (question_frequencies : List FreqRow)
    (remove_newlines : Bool) : List CollOut :=
  (mergeFreqLeft qa_pairs question_frequencies).flatMap (fun p =>
    let key := joinKey remove_newlines p.1.answer
    match judgments.filter (fun j => j.question == p.1.question && j.answer == key) with
    | [] => [⟨p.1.question, p.1.answer, p.1.confidence, p.2, none, none⟩]
    | js => js.map (fun j =>
        ⟨p.1.question, p.1.answer, p.1.confidence, p.2, some j.in_purview, some j.correct⟩))

/-- A raw Annotation Assist judgment row: question, answer, the integer
in-purview flag and the numeric annotation score. -/
structure ARow where
  question : String
  answer : String
  in_purview_flag : Int
  score : ℚ
deriving DecidableEq, Repr

/-- How many rows of `l` share the (question, answer) key of `r`. -/
def keyCount (l : List ARow) (r : ARow) : Nat :=
  l.countP (fun s => s.question == r.question && s.answer == r.answer)

/-- `annotation_assist[[QUESTION, ANSWER]].duplicated().any()`: some
(question, answer) key occurs more than once. -/
def hasDupKeys (l : List ARow) : Bool :=
  l.any (fun r => decide (2 ≤ keyCount l r))

/-- `interpret_annotation_assist(annotation_assist, judgment_threshold)`
(annotate.py lines 70-93).  When duplicate (question, answer) keys exist,
`drop_duplicates((QUESTION, ANSWER), keep=False)` keeps exactly the rows
whose key occurs once; the integer in-purview flag is coerced to a boolean
and the score is thresholded into the correct column. -/
def interpret_annotation_assist (aa : List ARow) (judgment_threshold : ℚ) :
    List JudgRow :=
  let kept := if hasDupKeys aa
    then aa.filter (fun r => keyCount aa r == 1)
    else aa
  kept.map (fun r =>
    ⟨r.question, r.answer, r.in_purview_flag != 0,
      decide (judgment_threshold ≤ r.score)⟩)

/-- The state of the `annotation_assist` argument after
`interpret_annotation_assist` returns: line 89 drops the multiply-keyed rows
from the argument itself (`inplace=True`) whenever duplicates exist.  (Lines
90-91 additionally coerce the in-purview column and add a correct column on
the same object; the row set alone is modelled here.) -/
def interpret_annotation_assist_argAfter (aa : List ARow) : List ARow :=
  if hasDupKeys aa
  then aa.filter (fun r => keyCount aa r == 1)
  else aa

/-- The state of the `system_answers` argument after annotate.py's
`add_judgments_and_frequencies_to_qa_pairs` returns: line 116 replaces the
argument's answer column by the answers with newlines stripped
(`system_answers[ANSWER] = system_answers[ANSWER].str.replace("\n", "")`). -/
def annotate_add_judgments_argAfter (system_answers : List QARow) : List QARow :=
  system_answers.map (fun r => { r with answer := stripNewlines r.answer })

/-! ### Concrete tables used in the concrete checks below -/

/-- A two-system, three-question collated table with unanimous in-purview
judgments; system A answers q1 and q3 correctly, system B answers q2
correctly. -/
def sampleTable : List CRow := [
  ⟨"q1", "A", "a1", 9/10, some true, some true,  some 1⟩,
  ⟨"q2", "A", "a2", 5/10, some true, some false, some 1⟩,
  ⟨"q3", "A", "a3", 8/10, some true, some true,  some 1⟩,
  ⟨"q1", "B", "b1", 1/10, some true, some false, some 1⟩,
  ⟨"q2", "B", "b2", 9/10, some true, some true,  some 1⟩,
  ⟨"q3", "B", "b3", 2/10, some true, some false, some 1⟩]

/-- The value of `oracle_combination sampleTable ["A", "B"] "Oracle"`. -/
def sampleOracle : List ORow := [
  ⟨"q1", "Oracle", "A", some "a1", 1,   true, true, 1⟩,
  ⟨"q2", "Oracle", "B", some "a3", 1,   true, true, 1⟩,
  ⟨"q3", "Oracle", "A", some "b2", 2/3, true, true, 1⟩]

/-- A table where question q1 is judged out of purview by system B (a
non-unanimous purview judgment) while system A answers it correctly. -/
def divergentPurviewTable : List CRow := [
  ⟨"q1", "A", "xa1", 9/10, some true,  some true,  some 1⟩,
  ⟨"q2", "A", "xa2", 1/10, some true,  some false, some 1⟩,
  ⟨"q1", "B", "xb1", 2/10, some false, some false, some 1⟩,
  ⟨"q2", "B", "xb2", 8/10, some true,  some true,  some 1⟩]

/-- Two systems that answer disjoint question sets. -/
def disjointTable : List CRow := [
  ⟨"q1", "A", "a", 1, some true, some true, some 1⟩,
  ⟨"q2", "B", "b", 1, some true, some true, some 1⟩]

/-- Two systems sharing their single question. -/
def sharedQuestionTable : List CRow := [
  ⟨"q1", "A", "a", 1,   some true, some true,  some 1⟩,
  ⟨"q1", "B", "a", 1/2, some true, some false, some 1⟩]

/-- A single-system table with an out-of-purview-but-correct row. -/
def anomalousTable : List CRow := [
  ⟨"q1", "A", "a1", 1, some true,  some true, some 1⟩,
  ⟨"q2", "A", "a2", 1, some false, some true, some 1⟩]

/-- A single-system, single-row judged table. -/
def simpleTable : List CRow := [
  ⟨"q1", "A", "a1", 1, some true, some true, some 1⟩]

/-- A system answer whose text contains a newline character. -/
def newlineAnswerRow : QARow := ⟨"q1", "a\nb", 1⟩

/-- A judgment whose answer text contains the same newline character. -/
def newlineJudgment : JudgRow := ⟨"q1", "a\nb", true, true⟩

/-- A system answer without newlines. -/
def plainAnswerRow : QARow := ⟨"q1", "ab", 1⟩

/-- A judgment without newlines. -/
def plainJudgment : JudgRow := ⟨"q1", "ab", true, true⟩

/-- Annotation rows where the (question, answer) key of the first two rows
collides. -/
def dupJudgments : List ARow := [
  ⟨"q1", "a", 1, 80⟩,
  ⟨"q1", "a", 0, 10⟩,
  ⟨"q2", "b", 1, 90⟩]

/-! ### Infrastructure lemmas -/

theorem stringContains_iff {s : List String} {q : String} :
    s.contains q = true ↔ q ∈ s := by
  simp [List.contains, List.elem_iff]

theorem listMapOpt_forall2 {α β : Type} {f : α → Option β} :
    ∀ {l : List α} {out : List β}, listMapOpt f l = some out →
      List.Forall₂ (fun a b => f a = some b) l out := by
  intro l
  induction l with
  | nil =>
    intro out h
    simp only [listMapOpt] at h
    injection h with h
    subst h
    exact List.Forall₂.nil
  | cons a l ih =>
    intro out h
    simp only [listMapOpt] at h
    cases hfa : f a with
    | none => simp only [hfa] at h; exact Option.noConfusion h
    | some b0 =>
      cases hrec : listMapOpt f l with
      | none => simp only [hfa, hrec] at h; exact Option.noConfusion h
      | some bs =>
        simp only [hfa, hrec] at h
        injection h with h
        subst h
        exact List.Forall₂.cons hfa (ih hrec)

theorem forall2_mem_right {α β : Type} {R : α → β → Prop} :
    ∀ {l : List α} {out : List β}, List.Forall₂ R l out →
      ∀ b ∈ out, ∃ a ∈ l, R a b := by
  intro l out h
  induction h with
  | nil => intro b hb; cases hb
  | @cons a b0 l2 out2 hR _ ih =>
    intro b hb
    rcases List.mem_cons.mp hb with hb | hb
    · subst hb; exact ⟨a, List.mem_cons_self _ _, hR⟩
    · rcases ih b hb with ⟨a2, ha2, hR2⟩
      exact ⟨a2, List.mem_cons_of_mem _ ha2, hR2⟩

theorem forall2_mem_left {α β : Type} {R : α → β → Prop} :
    ∀ {l : List α} {out : List β}, List.Forall₂ R l out →
      ∀ a ∈ l, ∃ b ∈ out, R a b := by
  intro l out h
  induction h with
  | nil => intro a ha; cases ha
  | @cons a0 b0 l2 out2 hR _ ih =>
    intro a ha
    rcases List.mem_cons.mp ha with ha | ha
    · subst ha; exact ⟨b0, List.mem_cons_self _ _, hR⟩
    · rcases ih a ha with ⟨b, hb, hR2⟩
      exact ⟨b, List.mem_cons_of_mem _ hb, hR2⟩

theorem listMapOpt_mem_right {α β : Type} {f : α → Option β} {l : List α}
    {out : List β} (h : listMapOpt f l = some out) :
    ∀ b ∈ out, ∃ a ∈ l, f a = some b :=
  forall2_mem_right (listMapOpt_forall2 h)

theorem listMapOpt_mem_left {α β : Type} {f : α → Option β} {l : List α}
    {out : List β} (h : listMapOpt f l = some out) :
    ∀ a ∈ l, ∃ b ∈ out, f a = some b :=
  forall2_mem_left (listMapOpt_forall2 h)

theorem listMapOpt_map_eq {α β γ : Type} {f : α → Option β} {g : β → γ}
    {h : α → γ} (hgh : ∀ a b, f a = some b → g b = h a) :
    ∀ {l : List α} {out : List β}, listMapOpt f l = some out →
      out.map g = l.map h := by
  intro l
  induction l with
  | nil =>
    intro out hmo
    simp only [listMapOpt] at hmo
    injection hmo with hmo
    subst hmo
    rfl
  | cons a l ih =>
    intro out hmo
    simp only [listMapOpt] at hmo
    cases hfa : f a with
    | none => simp only [hfa] at hmo; exact Option.noConfusion hmo
    | some b0 =>
      cases hrec : listMapOpt f l with
      | none => simp only [hfa, hrec] at hmo; exact Option.noConfusion hmo
      | some bs =>
        simp only [hfa, hrec] at hmo
        injection hmo with hmo
        subst hmo
        simp only [List.map_cons]
        rw [hgh a b0 hfa, ih hrec]

theorem listMapOpt_all_some {α β : Type} {f : α → Option β} :
    ∀ {l : List α}, (∀ a ∈ l, ∃ b, f a = some b) →
      ∃ out, listMapOpt f l = some out := by
  intro l
  induction l with
  | nil => intro _; exact ⟨[], rfl⟩
  | cons a l ih =>
    intro hall
    rcases hall a (List.mem_cons_self _ _) with ⟨b, hb⟩
    rcases ih (fun x hx => hall x (List.mem_cons_of_mem _ hx)) with ⟨bs, hbs⟩
    exact ⟨b :: bs, by simp only [listMapOpt, hb, hbs]⟩

theorem mem_foldl_filter {q : String} :
    ∀ (rest : List (List String)) (acc : List String),
      (q ∈ rest.foldl (fun acc2 s => acc2.filter (fun x => s.contains x)) acc) ↔
        (q ∈ acc ∧ ∀ s ∈ rest, q ∈ s) := by
  intro rest
  induction rest with
  | nil => intro acc; simp
  | cons s rest ih =>
    intro acc
    simp only [List.foldl_cons]
    rw [ih]
    simp only [List.mem_filter, stringContains_iff, List.mem_cons]
    constructor
    · rintro ⟨⟨h1, h2⟩, h3⟩
      exact ⟨h1, fun s2 hs2 => by
        rcases hs2 with hs2 | hs2
        · subst hs2; exact h2
        · exact h3 s2 hs2⟩
    · rintro ⟨h1, h2⟩
      exact ⟨⟨h1, h2 s (Or.inl rfl)⟩, fun s2 hs2 => h2 s2 (Or.inr hs2)⟩

theorem mem_indexIntersection {q : String} {qs0 : List String}
    {ls : List (List String)} :
    q ∈ indexIntersection (qs0 :: ls) ↔ (q ∈ qs0 ∧ ∀ s ∈ ls, q ∈ s) := by
  simp only [indexIntersection]
  exact mem_foldl_filter ls qs0

theorem find?_question_eq {q : String} :
    ∀ {rows : List JRow} {r : JRow},
      (questionsOf rows).Nodup → r ∈ rows → r.question = q →
      rows.find? (fun x => x.question == q) = some r := by
  intro rows
  induction rows with
  | nil => intro r _ hr; cases hr
  | cons x rows ih =>
    intro r hnd hr hq
    simp only [questionsOf, List.map_cons, List.nodup_cons] at hnd
    rcases List.mem_cons.mp hr with h1 | h2
    · subst h1
      exact List.find?_cons_of_pos _ (by simp [hq])
    · have hxq : ¬((fun s : JRow => s.question == q) x) = true := by
        intro hbad
        apply hnd.1
        rw [show x.question = q from by simpa using hbad, ← hq]
        exact List.mem_map_of_mem (fun s => s.question) h2
      have hstep : List.find? (fun s : JRow => s.question == q) (x :: rows)
          = List.find? (fun s : JRow => s.question == q) rows :=
        List.find?_cons_of_neg _ hxq
      rw [hstep]
      exact ih hnd.2 h2 hq

theorem row_eq_of_same_question {rows : List JRow} {r1 r2 : JRow}
    (hnd : (questionsOf rows).Nodup) (h1 : r1 ∈ rows) (h2 : r2 ∈ rows)
    (hq : r1.question = r2.question) : r1 = r2 := by
  have e1 := find?_question_eq (q := r2.question) hnd h1 hq
  have e2 := find?_question_eq (q := r2.question) hnd h2 rfl
  rw [e1] at e2
  injection e2

theorem idxmax_mem : ∀ {l : List (String × ℚ)} {m : String × ℚ},
    idxmax l = some m → m ∈ l := by
  intro l
  induction l with
  | nil => intro m h; simp [idxmax] at h
  | cons p rest ih =>
    intro m h
    simp only [idxmax] at h
    cases hrec : idxmax rest with
    | none =>
      simp only [hrec] at h
      injection h with h
      subst h
      exact List.mem_cons_self _ _
    | some m0 =>
      simp only [hrec] at h
      injection h with h
      by_cases hlt : m0.2 > p.2
      · rw [if_pos hlt] at h; subst h; exact List.mem_cons_of_mem _ (ih hrec)
      · rw [if_neg hlt] at h; subst h; exact List.mem_cons_self _ _

theorem idxmax_eq_none : ∀ {l : List (String × ℚ)}, idxmax l = none → l = [] := by
  intro l h
  cases l with
  | nil => rfl
  | cons p rest =>
    simp only [idxmax] at h
    cases hrec : idxmax rest <;> simp [hrec] at h

theorem idxmax_le : ∀ {l : List (String × ℚ)} {m : String × ℚ},
    idxmax l = some m → ∀ p ∈ l, p.2 ≤ m.2 := by
  intro l
  induction l with
  | nil => intro m h; simp [idxmax] at h
  | cons p rest ih =>
    intro m h p2 hp2
    simp only [idxmax] at h
    cases hrec : idxmax rest with
    | none =>
      simp only [hrec] at h
      injection h with h
      subst h
      rcases List.mem_cons.mp hp2 with h2 | h2
      · subst h2; exact le_refl _
      · rw [idxmax_eq_none hrec] at h2; cases h2
    | some m0 =>
      simp only [hrec] at h
      injection h with h
      rcases List.mem_cons.mp hp2 with h2 | h2
      · subst h2
        by_cases hlt : m0.2 > p2.2
        · rw [if_pos hlt] at h; subst h; exact le_of_lt hlt
        · rw [if_neg hlt] at h; subst h; exact le_refl _
      · have hle := ih hrec p2 h2
        by_cases hlt : m0.2 > p.2
        · rw [if_pos hlt] at h; subst h; exact hle
        · rw [if_neg hlt] at h; subst h
          exact le_trans hle (le_of_not_lt hlt)

theorem idxmin_mem : ∀ {l : List (String × ℚ)} {m : String × ℚ},
    idxmin l = some m → m ∈ l := by
  intro l
  induction l with
  | nil => intro m h; simp [idxmin] at h
  | cons p rest ih =>
    intro m h
    simp only [idxmin] at h
    cases hrec : idxmin rest with
    | none =>
      simp only [hrec] at h
      injection h with h
      subst h
      exact List.mem_cons_self _ _
    | some m0 =>
      simp only [hrec] at h
      injection h with h
      by_cases hlt : m0.2 < p.2
      · rw [if_pos hlt] at h; subst h; exact List.mem_cons_of_mem _ (ih hrec)
      · rw [if_neg hlt] at h; subst h; exact List.mem_cons_self _ _

theorem idxmin_eq_none : ∀ {l : List (String × ℚ)}, idxmin l = none → l = [] := by
  intro l h
  cases l with
  | nil => rfl
  | cons p rest =>
    simp only [idxmin] at h
    cases hrec : idxmin rest <;> simp [hrec] at h

theorem idxmin_ge : ∀ {l : List (String × ℚ)} {m : String × ℚ},
    idxmin l = some m → ∀ p ∈ l, m.2 ≤ p.2 := by
  intro l
  induction l with
  | nil => intro m h; simp [idxmin] at h
  | cons p rest ih =>
    intro m h p2 hp2
    simp only [idxmin] at h
    cases hrec : idxmin rest with
    | none =>
      simp only [hrec] at h
      injection h with h
      subst h
      rcases List.mem_cons.mp hp2 with h2 | h2
      · subst h2; exact le_refl _
      · rw [idxmin_eq_none hrec] at h2; cases h2
    | some m0 =>
      simp only [hrec] at h
      injection h with h
      rcases List.mem_cons.mp hp2 with h2 | h2
      · subst h2
        by_cases hlt : m0.2 < p2.2
        · rw [if_pos hlt] at h; subst h; exact le_of_lt hlt
        · rw [if_neg hlt] at h; subst h; exact le_refl _
      · have hle := ih hrec p2 h2
        by_cases hlt : m0.2 < p.2
        · rw [if_pos hlt] at h; subst h; exact hle
        · rw [if_neg hlt] at h; subst h
          exact le_trans (le_of_not_lt hlt) hle

theorem countP_lt_add_countP_eq_le (confs : List ℚ) (c : ℚ) :
    confs.countP (fun x => decide (x < c)) + confs.countP (fun x => decide (x = c))
      ≤ confs.length := by
  induction confs with
  | nil => simp
  | cons a l ih =>
    simp only [List.countP_cons, List.length_cons]
    have e1 : (if (decide (a < c)) = true then 1 else 0)
        + (if (decide (a = c)) = true then 1 else 0) ≤ 1 := by
      by_cases h1 : a < c
      · have h2 : ¬(a = c) := ne_of_lt h1
        simp [h1, h2]
      · by_cases h2 : a = c <;> simp [h1, h2]
    omega

theorem pctRank_pos {confs : List ℚ} {c : ℚ} (hc : c ∈ confs) :
    0 < pctRank confs c := by
  unfold pctRank
  have hn : 0 < confs.length := List.length_pos.mpr (List.ne_nil_of_mem hc)
  have hE : 0 < confs.countP (fun x => decide (x = c)) :=
    List.countP_pos_iff.mpr ⟨c, hc, by simp⟩
  apply div_pos
  · have g0 : (0:ℚ) ≤ (confs.countP (fun x => decide (x < c)) : ℚ) := Nat.cast_nonneg _
    have g1 : (1:ℚ) ≤ (confs.countP (fun x => decide (x = c)) : ℚ) := by
      exact_mod_cast hE
    linarith
  · exact_mod_cast hn

theorem pctRank_le_one {confs : List ℚ} {c : ℚ} (hc : c ∈ confs) :
    pctRank confs c ≤ 1 := by
  unfold pctRank
  have hn : 0 < confs.length := List.length_pos.mpr (List.ne_nil_of_mem hc)
  have hE : 0 < confs.countP (fun x => decide (x = c)) :=
    List.countP_pos_iff.mpr ⟨c, hc, by simp⟩
  have hLE := countP_lt_add_countP_eq_le confs c
  rw [div_le_one (by exact_mod_cast hn)]
  have g1 : (1:ℚ) ≤ (confs.countP (fun x => decide (x = c)) : ℚ) := by
    exact_mod_cast hE
  have g2 : (confs.countP (fun x => decide (x < c)) : ℚ)
      + (confs.countP (fun x => decide (x = c)) : ℚ) ≤ (confs.length : ℚ) := by
    exact_mod_cast hLE
  linarith

theorem attachAnswers_map_question :
    ∀ (rows : List ORow) (answers : List String),
      (attachAnswers rows answers).map (fun o => o.question)
        = rows.map (fun o => o.question) := by
  intro rows
  induction rows with
  | nil => intro answers; cases answers <;> rfl
  | cons o rest ih =>
    intro answers
    cases answers with
    | nil => simp only [attachAnswers, List.map_cons, ih]
    | cons a answers2 => simp only [attachAnswers, List.map_cons, ih]

theorem mem_attachAnswers :
    ∀ {rows : List ORow} {answers : List String} {o : ORow},
      o ∈ attachAnswers rows answers →
      ∃ o2 ∈ rows, o.question = o2.question ∧ o.system = o2.system ∧
        o.answering_system = o2.answering_system ∧ o.confidence = o2.confidence ∧
        o.in_purview = o2.in_purview ∧ o.correct = o2.correct ∧
        o.frequency = o2.frequency := by
  intro rows
  induction rows with
  | nil =>
    intro answers o h
    cases answers <;> cases h
  | cons o1 rest ih =>
    intro answers o h
    cases answers with
    | nil =>
      rcases List.mem_cons.mp h with h1 | h1
      · subst h1
        exact ⟨o1, List.mem_cons_self _ _, rfl, rfl, rfl, rfl, rfl, rfl, rfl⟩
      · rcases ih h1 with ⟨o2, ho2, hrest⟩
        exact ⟨o2, List.mem_cons_of_mem _ ho2, hrest⟩
    | cons a answers2 =>
      rcases List.mem_cons.mp h with h1 | h1
      · subst h1
        exact ⟨o1, List.mem_cons_self _ _, rfl, rfl, rfl, rfl, rfl, rfl, rfl⟩
      · rcases ih h1 with ⟨o2, ho2, hrest⟩
        exact ⟨o2, List.mem_cons_of_mem _ ho2, hrest⟩

theorem systemEntry_eq_some {q : String} {p : String × List JRow}
    {e : String × List JRow × JRow} (h : systemEntry q p = some e) :
    e.1 = p.1 ∧ e.2.1 = p.2 ∧ e.2.2 ∈ p.2 ∧ e.2.2.question = q ∧
      p.2.find? (fun r => r.question == q) = some e.2.2 := by
  unfold systemEntry at h
  cases hf : p.2.find? (fun r => r.question == q) with
  | none => rw [hf] at h; exact Option.noConfusion h
  | some r =>
    rw [hf] at h
    injection h with h
    subst h
    exact ⟨rfl, rfl, List.mem_of_find?_eq_some hf,
      by simpa using List.find?_some hf, by simpa using hf⟩

theorem buildRow_eq_some {systems : List (String × List JRow)} {nm q : String}
    {o : ORow} (h : buildRow systems nm q = some o) :
    ∃ e0 rest,
      listMapOpt (systemEntry q) systems = some (e0 :: rest) ∧
      o.question = q ∧ o.system = nm ∧ o.answer = none ∧
      o.in_purview = (e0 :: rest).all (fun e => e.2.2.in_purview) ∧
      o.correct = (e0 :: rest).any (fun e => e.2.2.correct) ∧
      o.frequency = e0.2.2.frequency ∧
      (if o.correct = true then idxmax else idxmin)
          ((e0 :: rest).map
            (fun e => (e.1, pctRank (e.2.1.map (fun r => r.confidence)) e.2.2.confidence)))
        = some (o.answering_system, o.confidence) := by
  unfold buildRow at h
  cases hE : listMapOpt (systemEntry q) systems with
  | none => rw [hE] at h; exact Option.noConfusion h
  | some entries =>
    rw [hE] at h
    cases entries with
    | nil => exact Option.noConfusion h
    | cons e0 rest =>
      dsimp only at h
      refine ⟨e0, rest, rfl, ?_⟩
      by_cases hcor : ((e0 :: rest).any (fun e => e.2.2.correct)) = true
      · rw [if_pos hcor] at h
        cases hsel : idxmax ((e0 :: rest).map
            (fun e => (e.1, pctRank (e.2.1.map (fun r => r.confidence)) e.2.2.confidence))) with
        | none => rw [hsel] at h; exact Option.noConfusion h
        | some sel =>
          rw [hsel] at h
          injection h with h
          subst h
          dsimp only
          refine ⟨rfl, rfl, rfl, rfl, rfl, rfl, ?_⟩
          rw [if_pos hcor, hsel]
      · rw [if_neg hcor] at h
        cases hsel : idxmin ((e0 :: rest).map
            (fun e => (e.1, pctRank (e.2.1.map (fun r => r.confidence)) e.2.2.confidence))) with
        | none => rw [hsel] at h; exact Option.noConfusion h
        | some sel =>
          rw [hsel] at h
          injection h with h
          subst h
          dsimp only
          refine ⟨rfl, rfl, rfl, rfl, rfl, rfl, ?_⟩
          rw [if_neg hcor, hsel]

theorem oracle_combination_eq_some {t : List CRow} {names : List String}
    {nm : String} {out : List ORow} (h : oracle_combination t names nm = some out) :
    names ≠ [] ∧
    ∃ rows,
      listMapOpt (buildRow (oracleSystems (drop_missing t) names) nm)
          (oracleQuestions (drop_missing t) names) = some rows ∧
      out = attachAnswers rows
          (((drop_missing t).filter (fun r =>
            rows.any (fun o2 => o2.question == r.question
              && o2.answering_system == r.system))).map (fun r => r.answer)) := by
  unfold oracle_combination at h
  by_cases h1 : names.isEmpty = true
  · rw [if_pos h1] at h; exact Option.noConfusion h
  · rw [if_neg h1] at h
    by_cases h2 : ((oracleSystems (drop_missing t) names).any (fun p => p.2.isEmpty)) = true
    · rw [if_pos h2] at h; exact Option.noConfusion h
    · rw [if_neg h2] at h
      by_cases h3 : (oracleQuestions (drop_missing t) names).isEmpty = true
      · rw [if_pos h3] at h; exact Option.noConfusion h
      · rw [if_neg h3] at h
        refine ⟨fun hn => h1 (by simp [hn]), ?_⟩
        cases hrows : listMapOpt (buildRow (oracleSystems (drop_missing t) names) nm)
            (oracleQuestions (drop_missing t) names) with
        | none => rw [hrows] at h; exact Option.noConfusion h
        | some rows =>
          rw [hrows] at h
          injection h with h
          exact ⟨rows, rfl, h.symm⟩

theorem mem_systemRows {data : List JRow} {n : String} {r : JRow} :
    r ∈ systemRows data n ↔ r ∈ data ∧ r.system = n := by
  simp [systemRows, List.mem_filter]

theorem mem_questionsOf_systemRows {data : List JRow} {n q : String} :
    q ∈ questionsOf (systemRows data n) ↔
      ∃ r ∈ data, r.system = n ∧ r.question = q := by
  simp only [questionsOf, List.mem_map]
  constructor
  · rintro ⟨r, hr, rfl⟩
    rcases mem_systemRows.mp hr with ⟨h1, h2⟩
    exact ⟨r, h1, h2, rfl⟩
  · rintro ⟨r, h1, h2, rfl⟩
    exact ⟨r, mem_systemRows.mpr ⟨h1, h2⟩, rfl⟩

theorem mem_oracleSystems {data : List JRow} {names : List String}
    {p : String × List JRow} :
    p ∈ oracleSystems data names ↔ ∃ n ∈ names, p = (n, systemRows data n) := by
  simp only [oracleSystems, List.mem_map]
  constructor
  · rintro ⟨n, hn, rfl⟩; exact ⟨n, hn, rfl⟩
  · rintro ⟨n, hn, rfl⟩; exact ⟨n, hn, rfl⟩

theorem mem_oracleQuestions {data : List JRow} {names : List String} {q : String}
    (hne : names ≠ []) :
    q ∈ oracleQuestions data names ↔
      ∀ n ∈ names, q ∈ questionsOf (systemRows data n) := by
  cases names with
  | nil => exact absurd rfl hne
  | cons n0 ns =>
    unfold oracleQuestions oracleSystems
    simp only [List.map_cons, List.map_map]
    rw [mem_indexIntersection]
    constructor
    · rintro ⟨h0, hrest⟩ n hn
      rcases List.mem_cons.mp hn with h | h
      · subst h; exact h0
      · exact hrest _ (List.mem_map_of_mem _ h)
    · intro hall
      refine ⟨hall n0 (List.mem_cons_self _ _), ?_⟩
      intro s hs
      rcases List.mem_map.mp hs with ⟨n, hn, rfl⟩
      exact hall n (List.mem_cons_of_mem _ hn)

theorem entry_facts {data : List JRow} {names : List String} {qq : String}
    {entries : List (String × List JRow × JRow)}
    (hE : listMapOpt (systemEntry qq) (oracleSystems data names) = some entries) :
    (∀ e ∈ entries, e.1 ∈ names ∧ e.2.1 = systemRows data e.1 ∧
       e.2.2 ∈ systemRows data e.1 ∧ e.2.2.question = qq) ∧
    (∀ n ∈ names, ∃ e ∈ entries, e.1 = n ∧ e.2.1 = systemRows data n ∧
       e.2.2 ∈ systemRows data n ∧ e.2.2.question = qq) := by
  constructor
  · intro e he
    rcases listMapOpt_mem_right hE e he with ⟨p, hp, hse⟩
    rcases mem_oracleSystems.mp hp with ⟨n, hn, rfl⟩
    rcases systemEntry_eq_some hse with ⟨h1, h2, h3, h4, _⟩
    refine ⟨h1 ▸ hn, ?_, ?_, h4⟩
    · rw [h1]; exact h2
    · rw [h1]; exact h3
  · intro n hn
    have hp : (n, systemRows data n) ∈ oracleSystems data names :=
      mem_oracleSystems.mpr ⟨n, hn, rfl⟩
    rcases listMapOpt_mem_left hE _ hp with ⟨e, he, hse⟩
    rcases systemEntry_eq_some hse with ⟨h1, h2, h3, h4, _⟩
    exact ⟨e, he, h1, h2, h3, h4⟩

/-- C4: the oracle combiner fails (raises) on an empty system-name list and
on an empty question intersection: `functools.reduce` over no indices raises
a TypeError, and the final per-oracle statistics divide by the zero row
count. -/
theorem oracle_combination_none_of_empty (t : List CRow) (names : List String)
    (nm : String)
    (h : names = [] ∨ oracleQuestions (drop_missing t) names = []) :
    oracle_combination t names nm = none := by
  unfold oracle_combination
  rcases h with h | h
  · rw [if_pos (by simp [h])]
  · by_cases h1 : names.isEmpty = true
    · rw [if_pos h1]
    · rw [if_neg h1]
      by_cases h2 : ((oracleSystems (drop_missing t) names).any (fun p => p.2.isEmpty)) = true
      · rw [if_pos h2]
      · rw [if_neg h2]
        rw [if_pos (by simp [h])]

/-- C3: the questions of the oracle output are exactly the intersection of
the questions answered by all the named systems; oracle purview is the AND
and oracle correctness the OR of the contributing systems' judgments.
Stated under the collated-table invariant that each named system answers a
question at most once. -/
theorem oracle_intersection_and_or (t : List CRow) (names : List String)
    (nm : String) (out : List ORow)
    (hu : ∀ n ∈ names, (questionsOf (systemRows (drop_missing t) n)).Nodup)
    (h : oracle_combination t names nm = some out) :
    (∀ q : String, q ∈ out.map (fun o => o.question) ↔
      ∀ n ∈ names, ∃ r ∈ drop_missing t, r.system = n ∧ r.question = q) ∧
    (∀ o ∈ out,
      (o.in_purview = true ↔
        ∀ n ∈ names, ∀ r ∈ drop_missing t,
          r.system = n → r.question = o.question → r.in_purview = true) ∧
      (o.correct = true ↔
        ∃ n ∈ names, ∃ r ∈ drop_missing t,
          r.system = n ∧ r.question = o.question ∧ r.correct = true)) := by
  obtain ⟨hne, rows, hrows, hout⟩ := oracle_combination_eq_some h
  have hmapq : out.map (fun o => o.question) = oracleQuestions (drop_missing t) names := by
    rw [hout, attachAnswers_map_question]
    have := listMapOpt_map_eq
      (f := buildRow (oracleSystems (drop_missing t) names) nm)
      (g := fun o : ORow => o.question) (h := fun q : String => q)
      (fun a b hb => by
        rcases buildRow_eq_some hb with ⟨e0, rest, _, hq, _⟩
        exact hq) hrows
    rw [this]
    exact List.map_id _
  constructor
  · intro q
    rw [hmapq, mem_oracleQuestions hne]
    constructor
    · intro hall n hn
      exact mem_questionsOf_systemRows.mp (hall n hn)
    · intro hall n hn
      exact mem_questionsOf_systemRows.mpr (hall n hn)
  · intro o ho
    rw [hout] at ho
    rcases mem_attachAnswers ho with ⟨o2, ho2, hq, _, _, _, hpv, hcor, _⟩
    rcases listMapOpt_mem_right hrows o2 ho2 with ⟨qq, _, hbuild⟩
    rcases buildRow_eq_some hbuild with ⟨e0, rest, hE, hbq, _, _, hbpv, hbcor, _, _⟩
    rcases entry_facts hE with ⟨hfwd, hbwd⟩
    have hoq : o.question = qq := by rw [hq, hbq]
    constructor
    · rw [hpv, hbpv]
      constructor
      · intro hall n hn r hr hrs hrq
        rcases hbwd n hn with ⟨e, he, he1, he2, he3, he4⟩
        have hrmem : r ∈ systemRows (drop_missing t) n := mem_systemRows.mpr ⟨hr, hrs⟩
        have hreq : r = e.2.2 :=
          row_eq_of_same_question (hu n hn) hrmem he3 (by rw [hrq, hoq, he4])
        rw [hreq]
        exact List.all_eq_true.mp hall e he
      · intro hcond
        rw [List.all_eq_true]
        intro e he
        rcases hfwd e he with ⟨hn, _, he3, he4⟩
        rcases mem_systemRows.mp he3 with ⟨hmem, hsys⟩
        exact hcond e.1 hn e.2.2 hmem hsys (by rw [he4, hoq])
    · rw [hcor, hbcor]
      constructor
      · intro hany
        rcases List.any_eq_true.mp hany with ⟨e, he, hec⟩
        rcases hfwd e he with ⟨hn, _, he3, he4⟩
        rcases mem_systemRows.mp he3 with ⟨hmem, hsys⟩
        exact ⟨e.1, hn, e.2.2, hmem, hsys, by rw [he4, hoq], hec⟩
      · rintro ⟨n, hn, r, hr, hrs, hrq, hrc⟩
        rcases hbwd n hn with ⟨e, he, he1, he2, he3, he4⟩
        have hrmem : r ∈ systemRows (drop_missing t) n := mem_systemRows.mpr ⟨hr, hrs⟩
        have hreq : r = e.2.2 :=
          row_eq_of_same_question (hu n hn) hrmem he3 (by rw [hrq, hoq, he4])
        rw [List.any_eq_true]
        exact ⟨e, he, by rw [← hreq]; exact hrc⟩

/-- C1 (amended): each system's confidences are mapped to percentile ranks
within that system's own answer set, and the ranks of answered questions lie
in (0, 1]; the oracle confidence is the maximal rank across the contributing
systems and the answering system attains it when the oracle is CORRECT, and
the minimal rank when the oracle is INCORRECT — the selection branches on
correctness alone, not on purview.  Stated under the collated-table
invariant that each named system answers a question at most once. -/
theorem oracle_percentile_selection (t : List CRow) (names : List String)
    (nm : String) (out : List ORow)
    (hu : ∀ n ∈ names, (questionsOf (systemRows (drop_missing t) n)).Nodup)
    (h : oracle_combination t names nm = some out) :
    (∀ n ∈ names, ∀ r ∈ drop_missing t, r.system = n →
      0 < pctRank (confsOf (drop_missing t) n) r.confidence ∧
      pctRank (confsOf (drop_missing t) n) r.confidence ≤ 1) ∧
    (∀ o ∈ out,
      (o.answering_system ∈ names ∧
       ∃ r ∈ drop_missing t, r.system = o.answering_system ∧
         r.question = o.question ∧
         pctRank (confsOf (drop_missing t) o.answering_system) r.confidence
           = o.confidence) ∧
      (∀ n ∈ names, ∀ r ∈ drop_missing t, r.system = n → r.question = o.question →
        (o.correct = true →
          pctRank (confsOf (drop_missing t) n) r.confidence ≤ o.confidence) ∧
        (o.correct = false →
          o.confidence ≤ pctRank (confsOf (drop_missing t) n) r.confidence))) := by
  obtain ⟨hne, rows, hrows, hout⟩ := oracle_combination_eq_some h
  constructor
  · intro n hn r hr hrs
    have hc : r.confidence ∈ confsOf (drop_missing t) n :=
      List.mem_map_of_mem (fun x => x.confidence) (mem_systemRows.mpr ⟨hr, hrs⟩)
    exact ⟨pctRank_pos hc, pctRank_le_one hc⟩
  · intro o ho
    rw [hout] at ho
    rcases mem_attachAnswers ho with ⟨o2, ho2, hq, _, hans, hconf, _, hcor, _⟩
    rcases listMapOpt_mem_right hrows o2 ho2 with ⟨qq, _, hbuild⟩
    rcases buildRow_eq_some hbuild with ⟨e0, rest, hE, hbq, _, _, _, _, _, hsel⟩
    rcases entry_facts hE with ⟨hfwd, hbwd⟩
    have hoq : o.question = qq := by rw [hq, hbq]
    have hselo : (if o.correct = true then idxmax else idxmin)
        ((e0 :: rest).map
          (fun e => (e.1, pctRank (e.2.1.map (fun r => r.confidence)) e.2.2.confidence)))
        = some (o.answering_system, o.confidence) := by
      rw [hcor, hans, hconf]
      exact hsel
    constructor
    · have hmemsel : (o.answering_system, o.confidence) ∈
          (e0 :: rest).map
            (fun e => (e.1, pctRank (e.2.1.map (fun r => r.confidence)) e.2.2.confidence)) := by
        by_cases hc : o.correct = true
        · rw [if_pos hc] at hselo
          exact idxmax_mem hselo
        · rw [if_neg hc] at hselo
          exact idxmin_mem hselo
      rcases List.mem_map.mp hmemsel with ⟨e, he, hpair⟩
      rcases hfwd e he with ⟨hn1, he2, he3, he4⟩
      have hp1 : e.1 = o.answering_system := congrArg Prod.fst hpair
      have hp2 : pctRank (e.2.1.map (fun r => r.confidence)) e.2.2.confidence
          = o.confidence := congrArg Prod.snd hpair
      rcases mem_systemRows.mp he3 with ⟨hmem, hsys⟩
      refine ⟨hp1 ▸ hn1, e.2.2, hmem, by rw [hsys, hp1], by rw [he4, hoq], ?_⟩
      rw [← hp1, ← hp2]
      simp only [confsOf]
      rw [he2]
    · intro n hn r hr hrs hrq
      rcases hbwd n hn with ⟨e, he, he1, he2, he3, he4⟩
      have hrmem : r ∈ systemRows (drop_missing t) n := mem_systemRows.mpr ⟨hr, hrs⟩
      have hreq : r = e.2.2 :=
        row_eq_of_same_question (hu n hn) hrmem he3 (by rw [hrq, hoq, he4])
      have hpmem : (e.1, pctRank (e.2.1.map (fun x => x.confidence)) e.2.2.confidence) ∈
          (e0 :: rest).map
            (fun e => (e.1, pctRank (e.2.1.map (fun r => r.confidence)) e.2.2.confidence)) :=
        List.mem_map_of_mem _ he
      have hval : pctRank (e.2.1.map (fun x => x.confidence)) e.2.2.confidence
          = pctRank (confsOf (drop_missing t) n) r.confidence := by
        rw [he2, hreq]
        rfl
      constructor
      · intro hc
        rw [if_pos hc] at hselo
        have := idxmax_le hselo _ hpmem
        rw [← hval]
        exact this
      · intro hc
        rw [if_neg (by rw [hc]; exact Bool.false_ne_true)] at hselo
        have := idxmin_ge hselo _ hpmem
        rw [← hval]
        exact this

/-- C1 (counterexample): on `divergentPurviewTable` question q1 is out of the
oracle's purview (system B judged it out of purview) yet the oracle's
confidence is system A's MAXIMUM percentile rank 1 with answering system A,
not the minimum rank 1/2 attained by system B: the source branches on
correctness alone, so an out-of-purview-but-correct question uses the
maximum. -/
theorem oracle_out_of_purview_uses_max :
    oracle_combination divergentPurviewTable ["A", "B"] "O" = some [
      ⟨"q1", "O", "A", some "xa1", 1, false, true, 1⟩,
      ⟨"q2", "O", "B", some "xb2", 1, true, true, 1⟩] ∧
    pctRank (confsOf (drop_missing divergentPurviewTable) "A") (9/10) = 1 ∧
    pctRank (confsOf (drop_missing divergentPurviewTable) "B") (2/10) = 1/2 ∧
    idxmin [("A", 1), ("B", 1/2)] = some ("B", 1/2) ∧
    ¬((1 : ℚ) = 1/2) := by
  with_unfolding_all decide

/-- C1 (witness for the amended theorem): the selection property holds on
`sampleTable`, instantiated at the oracle's q1 row. -/
theorem oracle_percentile_selection_witness :
    (⟨"q1", "Oracle", "A", some "a1", 1, true, true, 1⟩ : ORow).answering_system
      ∈ ["A", "B"] :=
  (((oracle_percentile_selection sampleTable ["A", "B"] "Oracle" sampleOracle
      (by with_unfolding_all decide) (by with_unfolding_all decide)).2
    ⟨"q1", "Oracle", "A", some "a1", 1, true, true, 1⟩
    (by with_unfolding_all decide)).1).1

/-- C2: the oracle's answer text is NOT looked up per question from the
answering system's row: the merge result is assigned to the answer column
positionally, in the row order of the input table.  On `sampleTable` the
oracle's q2 row names answering system B but carries system A's q3 answer
"a3", while B's original q2 row holds "b2". -/
theorem oracle_answer_misassigned :
    oracle_combination sampleTable ["A", "B"] "Oracle" = some sampleOracle ∧
    sampleOracle.map (fun o => (o.question, o.answering_system, o.answer)) =
      [("q1", "A", some "a1"), ("q2", "B", some "a3"), ("q3", "A", some "b2")] ∧
    (drop_missing sampleTable).filter
        (fun r => r.system == "B" && r.question == "q2") =
      [⟨"q2", "B", "b2", 9/10, true, true, 1⟩] ∧
    (some "a3" : Option String) ≠ some "b2" := by
  with_unfolding_all decide

/-- C3 (witness): the question-set and AND/OR properties hold on
`sampleTable`; q1 is in the output because both systems answered it. -/
theorem oracle_intersection_and_or_witness :
    "q1" ∈ sampleOracle.map (fun o => o.question) :=
  ((oracle_intersection_and_or sampleTable ["A", "B"] "Oracle" sampleOracle
      (by with_unfolding_all decide) (by with_unfolding_all decide)).1 "q1").mpr
    (by with_unfolding_all decide)

/-- C4 (witness): the empty name list makes the combiner fail. -/
theorem oracle_combination_none_of_empty_witness :
    oracle_combination ([] : List CRow) ([] : List String) "O" = none :=
  oracle_combination_none_of_empty [] [] "O" (Or.inl rfl)

theorem mem_joinOnQuestion {dx dy : List JRow} {p : JRow × JRow} :
    p ∈ joinOnQuestion dx dy ↔
      p.1 ∈ dx ∧ p.2 ∈ dy ∧ p.2.question = p.1.question := by
  simp only [joinOnQuestion, List.mem_flatMap, List.mem_map, List.mem_filter]
  constructor
  · rintro ⟨rx, hrx, ry, ⟨hry, hq⟩, rfl⟩
    exact ⟨hrx, hry, by simpa using hq⟩
  · rintro ⟨h1, h2, h3⟩
    exact ⟨p.1, h1, p.2, ⟨h2, by simpa using h3⟩, rfl⟩

theorem joinOnQuestion_eq_nil_iff {dx dy : List JRow} :
    joinOnQuestion dx dy = [] ↔
      ¬∃ rx ∈ dx, ∃ ry ∈ dy, ry.question = rx.question := by
  rw [List.eq_nil_iff_forall_not_mem]
  constructor
  · rintro hall ⟨rx, hrx, ry, hry, hq⟩
    exact hall (rx, ry) (mem_joinOnQuestion.mpr ⟨hrx, hry, hq⟩)
  · intro hno p hp
    rcases mem_joinOnQuestion.mp hp with ⟨h1, h2, h3⟩
    exact hno ⟨p.1, h1, p.2, h2, h3⟩

theorem simPair_eq_some_of {data : List JRow} {p : String × String}
    (hne : joinOnQuestion (systemRows data p.1) (systemRows data p.2) ≠ []) :
    ∃ row, simPair data p = some row := by
  simp only [simPair]
  rw [if_neg (fun h => hne (List.length_eq_zero.mp h))]
  exact ⟨_, rfl⟩

theorem simPair_pair_eq {data : List JRow} {p : String × String} {row : SimRow}
    (h : simPair data p = some row) : (row.system_1, row.system_2) = p := by
  simp only [simPair] at h
  by_cases hc : (joinOnQuestion (systemRows data p.1) (systemRows data p.2)).length = 0
  · rw [if_pos hc] at h; exact Option.noConfusion h
  · rw [if_neg hc] at h
    injection h with h
    subst h
    rfl

/-- C5 (amended): when every pair of distinct systems present in the table
shares at least one question, `system_similarity` returns a table indexed by
exactly one row per unordered pair of distinct systems, in sorted
combination order. -/
theorem system_similarity_pairs (t : List CRow)
    (hshare : ∀ p ∈ pairsOf (presentSystems (drop_missing t)),
      ∃ rx ∈ drop_missing t, ∃ ry ∈ drop_missing t,
        rx.system = p.1 ∧ ry.system = p.2 ∧ ry.question = rx.question) :
    (system_similarity t).map
        (fun out => out.map (fun row => (row.system_1, row.system_2)))
      = some (pairsOf (presentSystems (drop_missing t))) := by
  have hall : ∀ p ∈ pairsOf (presentSystems (drop_missing t)),
      ∃ row, simPair (drop_missing t) p = some row := by
    intro p hp
    rcases hshare p hp with ⟨rx, hrx, ry, hry, hxs, hys, hq⟩
    refine simPair_eq_some_of (fun hnil => ?_)
    exact (joinOnQuestion_eq_nil_iff.mp hnil)
      ⟨rx, mem_systemRows.mpr ⟨hrx, hxs⟩, ry, mem_systemRows.mpr ⟨hry, hys⟩, hq⟩
  rcases listMapOpt_all_some hall with ⟨out, hout⟩
  have hmain : system_similarity t = some out := hout
  rw [hmain]
  simp only [Option.map]
  have hmap := listMapOpt_map_eq
    (f := simPair (drop_missing t))
    (g := fun row : SimRow => (row.system_1, row.system_2))
    (h := fun p : String × String => p)
    (fun a b hb => simPair_pair_eq hb) hout
  rw [hmap]
  congr 1
  exact List.map_id _

/-- C5 (witness): on `sharedQuestionTable` the two systems share a question
and the result has exactly the pair (A, B). -/
theorem system_similarity_pairs_witness :
    (system_similarity sharedQuestionTable).map
        (fun out => out.map (fun row => (row.system_1, row.system_2)))
      = some (pairsOf (presentSystems (drop_missing sharedQuestionTable))) :=
  system_similarity_pairs sharedQuestionTable (by with_unfolding_all decide)

/-- C5 (counterexample): on a table whose two systems share no question,
`system_similarity` raises (`100.0 * same_answer / n` divides by `n = 0` for
the pair), instead of returning a table in which that pair merely does not
appear. -/
theorem system_similarity_disjoint_fails :
    presentSystems (drop_missing disjointTable) = ["A", "B"] ∧
    system_similarity disjointTable = none := by
  with_unfolding_all decide

theorem compare_systems_none_iff {t : List CRow} {x y ct : String}
    (hv : ct = "better" ∨ ct = "worse") :
    compare_systems t x y ct = none ↔
      joinOnQuestion (systemRows (purviewRows t) x)
        (systemRows (purviewRows t) y) = [] := by
  simp only [compare_systems]
  rw [if_pos hv]
  by_cases hz : (joinOnQuestion (systemRows (purviewRows t) x)
      (systemRows (purviewRows t) y)).length = 0
  · rw [if_pos hz]
    simp [List.length_eq_zero.mp hz]
  · rw [if_neg hz]
    constructor
    · intro hnone; exact Option.noConfusion hnone
    · intro hnil; exact absurd (by rw [hnil]; rfl) hz

theorem cmpSelector_better_eq (p : JRow × JRow) :
    cmpSelector "better" p = (p.1.correct && !p.2.correct) := by
  simp [cmpSelector]

theorem cmpSelector_worse_eq (p : JRow × JRow) :
    cmpSelector "worse" p = (!p.1.correct && p.2.correct) := by
  unfold cmpSelector
  rw [if_neg (by decide)]

theorem compare_systems_some_mem {t : List CRow} {x y ct : String}
    {out : List CmpRow} (hv : ct = "better" ∨ ct = "worse")
    (h : compare_systems t x y ct = some out) :
    ∀ q, q ∈ out.map (fun row => row.question) ↔
      ∃ pr ∈ joinOnQuestion (systemRows (purviewRows t) x)
          (systemRows (purviewRows t) y),
        cmpSelector ct pr = true ∧ pr.1.question = q := by
  simp only [compare_systems] at h
  rw [if_pos hv] at h
  by_cases hz : (joinOnQuestion (systemRows (purviewRows t) x)
      (systemRows (purviewRows t) y)).length = 0
  · rw [if_pos hz] at h; exact Option.noConfusion h
  · rw [if_neg hz] at h
    injection h with h
    subst h
    intro q
    have hperm := List.mergeSort_perm
      ((List.filter (cmpSelector ct)
        (joinOnQuestion (systemRows (purviewRows t) x)
          (systemRows (purviewRows t) y))).map
        (fun p => CmpRow.mk p.1.question p.1.frequency p.1.answer p.1.confidence
          p.2.answer p.2.confidence)) cmpRowLe
    rw [(hperm.map (fun row : CmpRow => row.question)).mem_iff]
    simp only [List.map_map, List.mem_map, Function.comp, List.mem_filter]
    constructor
    · rintro ⟨pr, ⟨hpr, hsel⟩, rfl⟩
      exact ⟨pr, hpr, hsel, rfl⟩
    · rintro ⟨pr, hpr, hsel, rfl⟩
      exact ⟨pr, ⟨hpr, hsel⟩, rfl⟩

/-- C6: `compare_systems(t, x, y, "better")` and
`compare_systems(t, y, x, "worse")` agree: they fail together (both divide by
a zero shared-question count) and, when they return, their question sets are
identical. -/
theorem compare_systems_symmetry (t : List CRow) (x y : String) (hxy : x ≠ y) :
    (compare_systems t x y "better" = none ↔
      compare_systems t y x "worse" = none) ∧
    (∀ out1 out2, compare_systems t x y "better" = some out1 →
      compare_systems t y x "worse" = some out2 →
      ∀ q, q ∈ out1.map (fun row => row.question) ↔
        q ∈ out2.map (fun row => row.question)) := by
  constructor
  · rw [compare_systems_none_iff (Or.inl rfl), compare_systems_none_iff (Or.inr rfl)]
    rw [joinOnQuestion_eq_nil_iff, joinOnQuestion_eq_nil_iff]
    constructor
    · rintro hno ⟨ry, hry, rx, hrx, hq⟩
      exact hno ⟨rx, hrx, ry, hry, hq.symm⟩
    · rintro hno ⟨rx, hrx, ry, hry, hq⟩
      exact hno ⟨ry, hry, rx, hrx, hq.symm⟩
  · intro out1 out2 h1 h2 q
    rw [compare_systems_some_mem (Or.inl rfl) h1 q,
      compare_systems_some_mem (Or.inr rfl) h2 q]
    constructor
    · rintro ⟨pr, hpr, hsel, hq⟩
      rcases mem_joinOnQuestion.mp hpr with ⟨hx, hy, hqq⟩
      refine ⟨(pr.2, pr.1), mem_joinOnQuestion.mpr ⟨hy, hx, hqq.symm⟩, ?_, by
        rw [show (pr.2, pr.1).1 = pr.2 from rfl, hqq, hq]⟩
      rw [cmpSelector_worse_eq]
      rw [cmpSelector_better_eq] at hsel
      rw [Bool.and_eq_true] at hsel
      rcases hsel with ⟨ha, hb⟩
      simp only [show (pr.2, pr.1).1 = pr.2 from rfl,
        show (pr.2, pr.1).2 = pr.1 from rfl]
      rw [Bool.and_eq_true]
      exact ⟨by simpa using hb, ha⟩
    · rintro ⟨pr, hpr, hsel, hq⟩
      rcases mem_joinOnQuestion.mp hpr with ⟨hy, hx, hqq⟩
      refine ⟨(pr.2, pr.1), mem_joinOnQuestion.mpr ⟨hx, hy, hqq.symm⟩, ?_, by
        rw [show (pr.2, pr.1).1 = pr.2 from rfl, hqq, hq]⟩
      rw [cmpSelector_better_eq]
      rw [cmpSelector_worse_eq] at hsel
      rw [Bool.and_eq_true] at hsel
      rcases hsel with ⟨ha, hb⟩
      simp only [show (pr.2, pr.1).1 = pr.2 from rfl,
        show (pr.2, pr.1).2 = pr.1 from rfl]
      rw [Bool.and_eq_true]
      exact ⟨hb, by simpa using ha⟩

/-- C6 (witness): the two comparison calls on `sampleTable` fail together or
return together. -/
theorem compare_systems_symmetry_witness :
    compare_systems sampleTable "A" "B" "better" = none ↔
      compare_systems sampleTable "B" "A" "worse" = none :=
  (compare_systems_symmetry sampleTable "A" "B" (by decide)).1

theorem pctGe_trans (a b c : PctVal) (h1 : pctGe a b = true)
    (h2 : pctGe b c = true) : pctGe a c = true := by
  cases a <;> cases b <;> cases c <;> simp_all [pctGe] <;> exact le_trans h2 h1

theorem pctGe_total (a b : PctVal) : (pctGe a b || pctGe b a) = true := by
  cases a <;> cases b <;> simp [pctGe] <;> exact le_total _ _

theorem mem_presentSystems {data : List JRow} {s : String} :
    s ∈ presentSystems data ↔ ∃ r ∈ data, r.system = s := by
  unfold presentSystems sortStrings
  rw [(List.mergeSort_perm _ _).mem_iff, List.mem_dedup]
  simp only [List.mem_map]

theorem freqFilter_subset {data : List JRow} {fl fg : Option Int} {r : JRow}
    (h : r ∈ freqFilter data fl fg) : r ∈ data := by
  unfold freqFilter at h
  cases fl <;> cases fg <;>
    simp only [List.mem_filter] at h <;>
    first
      | exact h
      | exact h.1
      | exact h.1.1

theorem analyze_answers_eq_some {tables : List (List CRow)}
    {fl fg : Option Int} {out : List SummaryRow}
    (h : analyze_answers tables fl fg = some out) :
    out = ((presentSystems (freqFilter (drop_missing tables.flatten) fl fg)).map
        (summaryRowFor (freqFilter (drop_missing tables.flatten) fl fg))).mergeSort
        (fun a b => pctGe a.correct_pct b.correct_pct) := by
  unfold analyze_answers at h
  by_cases he : tables.isEmpty = true
  · rw [if_pos he] at h; exact Option.noConfusion h
  · rw [if_neg he] at h
    injection h with h
    exact h.symm

/-- C7 (amended): in the `analyze_answers` summary the in-purview percentage
is always in [0, 100]; provided no row is marked correct while out of purview
(the anomalous case the loader flags), the correct percentage is taken
relative to the in-purview count, lies in [0, 100] whenever it is finite, is
NaN exactly when the in-purview count is 0 (and never infinite), and the rows
are sorted by correct percentage descending with NaN last. -/
theorem analyze_answers_percentages (tables : List (List CRow))
    (fl fg : Option Int) (out : List SummaryRow)
    (hok : ∀ r ∈ drop_missing tables.flatten, r.correct = true → r.in_purview = true)
    (h : analyze_answers tables fl fg = some out) :
    (∀ row ∈ out,
      (0 ≤ row.in_purview_pct ∧ row.in_purview_pct ≤ 100) ∧
      (row.in_purview ≠ 0 →
        row.correct_pct = PctVal.val ((row.correct : ℚ) / (row.in_purview : ℚ) * 100)) ∧
      (∀ v, row.correct_pct = PctVal.val v → 0 ≤ v ∧ v ≤ 100) ∧
      (row.correct_pct = PctVal.nan ↔ row.in_purview = 0) ∧
      row.correct_pct ≠ PctVal.inf) ∧
    List.Pairwise (fun a b => pctGe a.correct_pct b.correct_pct = true) out := by
  have hout := analyze_answers_eq_some h
  constructor
  · intro row hrow
    rw [hout] at hrow
    rw [(List.mergeSort_perm _ _).mem_iff] at hrow
    rcases List.mem_map.mp hrow with ⟨s, hs, hsrow⟩
    rcases mem_presentSystems.mp hs with ⟨r0, hr0, hr0s⟩
    subst hsrow
    set data := freqFilter (drop_missing tables.flatten) fl fg with hdata
    set g := systemRows data s with hg
    have hglen : 0 < g.length := by
      rw [List.length_pos]
      intro hnil
      have : r0 ∈ g := mem_systemRows.mpr ⟨hr0, hr0s⟩
      rw [hnil] at this
      cases this
    have hpvle : g.countP (fun r => r.in_purview) ≤ g.length :=
      List.countP_le_length _
    have hcorpv : g.countP (fun r => r.correct) ≤ g.countP (fun r => r.in_purview) := by
      apply List.countP_mono_left
      intro r hr
      exact hok r (freqFilter_subset (mem_systemRows.mp hr).1)
    refine ⟨⟨?_, ?_⟩, ?_, ?_, ?_, ?_⟩
    · show (0:ℚ) ≤ (g.countP (fun r => r.in_purview) : ℚ) / (g.length : ℚ) * 100
      positivity
    · show (g.countP (fun r => r.in_purview) : ℚ) / (g.length : ℚ) * 100 ≤ 100
      have hq1 : (g.countP (fun r => r.in_purview) : ℚ) / (g.length : ℚ) ≤ 1 := by
        rw [div_le_one (by exact_mod_cast hglen)]
        exact_mod_cast hpvle
      nlinarith
    · intro hpv0
      have hpv0c : g.countP (fun r => r.in_purview) ≠ 0 := hpv0
      show pctDiv (g.countP (fun r => r.correct)) (g.countP (fun r => r.in_purview))
          = PctVal.val (((summaryRowFor data s).correct : ℚ)
            / ((summaryRowFor data s).in_purview : ℚ) * 100)
      unfold pctDiv
      rw [if_neg hpv0c]
      rfl
    · intro v hv
      show 0 ≤ v ∧ v ≤ 100
      have hpv0 : g.countP (fun r => r.in_purview) ≠ 0 := by
        intro h0
        have hc0 : g.countP (fun r => r.correct) = 0 := by omega
        simp only [summaryRowFor, pctDiv, h0, hc0, if_pos rfl] at hv
        exact PctVal.noConfusion hv
      simp only [summaryRowFor, pctDiv, if_neg hpv0] at hv
      injection hv with hv
      subst hv
      constructor
      · positivity
      · have hq1 : (g.countP (fun r => r.correct) : ℚ)
            / (g.countP (fun r => r.in_purview) : ℚ) ≤ 1 := by
          rw [div_le_one (by exact_mod_cast Nat.pos_of_ne_zero hpv0)]
          exact_mod_cast hcorpv
        nlinarith
    · show pctDiv (g.countP (fun r => r.correct)) (g.countP (fun r => r.in_purview))
          = PctVal.nan ↔ g.countP (fun r => r.in_purview) = 0
      unfold pctDiv
      constructor
      · intro hnan
        by_cases h0 : g.countP (fun r => r.in_purview) = 0
        · exact h0
        · rw [if_neg h0] at hnan
          exact PctVal.noConfusion hnan
      · intro h0
        have hc0 : g.countP (fun r => r.correct) = 0 := by omega
        rw [if_pos h0, if_pos hc0]
    · show pctDiv (g.countP (fun r => r.correct)) (g.countP (fun r => r.in_purview))
          ≠ PctVal.inf
      unfold pctDiv
      by_cases h0 : g.countP (fun r => r.in_purview) = 0
      · have hc0 : g.countP (fun r => r.correct) = 0 := by omega
        rw [if_pos h0, if_pos hc0]
        exact fun hbad => PctVal.noConfusion hbad
      · rw [if_neg h0]
        exact fun hbad => PctVal.noConfusion hbad
  · rw [hout]
    exact List.sorted_mergeSort
      (fun a b c hab hbc =>
        pctGe_trans a.correct_pct b.correct_pct c.correct_pct hab hbc)
      (fun a b => pctGe_total a.correct_pct b.correct_pct) _

/-- C7 (counterexample): with an out-of-purview-but-correct row the correct
percentage exceeds 100: on `anomalousTable` system A has in-purview count 1
but correct count 2, so the reported correct percentage is 200. -/
theorem analyze_answers_over_100 :
    analyze_answers [anomalousTable] none none =
      some [⟨"A", 2, 2, 1, 50, 2, PctVal.val 200⟩] ∧
    ¬((200 : ℚ) ≤ 100) := by
  with_unfolding_all decide

/-- C7 (witness): the percentage and sortedness properties hold on
`simpleTable`. -/
theorem analyze_answers_percentages_witness :
    List.Pairwise (fun a b => pctGe a.correct_pct b.correct_pct = true)
      [(⟨"A", 1, 1, 1, 100, 1, PctVal.val 100⟩ : SummaryRow)] :=
  (analyze_answers_percentages [simpleTable] none none
    [⟨"A", 1, 1, 1, 100, 1, PctVal.val 100⟩]
    (by with_unfolding_all decide) (by with_unfolding_all decide)).2

theorem mergeFreqLeft_fst_mem {qa : List QARow} {freqs : List FreqRow}
    {p : QARow × Option Int} (hp : p ∈ mergeFreqLeft qa freqs) : p.1 ∈ qa := by
  unfold mergeFreqLeft at hp
  rcases List.mem_flatMap.mp hp with ⟨r, hr, hmem⟩
  cases hfil : freqs.filter (fun f => f.question == r.question) with
  | nil =>
    rw [hfil] at hmem
    rcases List.mem_singleton.mp hmem with rfl
    exact hr
  | cons f fs =>
    rw [hfil] at hmem
    rcases List.mem_map.mp hmem with ⟨f2, _, rfl⟩
    exact hr

/-- C8 (amended): with newline normalization on, every output row carries
the original system answer text unchanged, and any judgment attached to a
row matched the row's question and, AS-IS, the row's answer with newlines
stripped — only the system side of the join is stripped; when no system
answer contains a newline the join is the plain exact join. -/
theorem add_judgments_newline_handling (qa_pairs : List QARow)
    (judgments : List JudgRow) (question_frequencies : List FreqRow) :
    (∀ o ∈ add_judgments_and_frequencies_to_qa_pairs qa_pairs judgments
        question_frequencies true,
      (∃ r ∈ qa_pairs, o.question = r.question ∧ o.answer = r.answer ∧
        o.confidence = r.confidence) ∧
      (∀ pv c, o.in_purview = some pv → o.correct = some c →
        ∃ j ∈ judgments, j.question = o.question ∧
          j.answer = stripNewlines o.answer ∧ j.in_purview = pv ∧ j.correct = c)) ∧
    ((∀ r ∈ qa_pairs, stripNewlines r.answer = r.answer) →
      add_judgments_and_frequencies_to_qa_pairs qa_pairs judgments
          question_frequencies true
        = add_judgments_and_frequencies_to_qa_pairs qa_pairs judgments
            question_frequencies false) := by
  constructor
  · intro o ho
    unfold add_judgments_and_frequencies_to_qa_pairs at ho
    rcases List.mem_flatMap.mp ho with ⟨p, hp, hmem⟩
    have hp1 : p.1 ∈ qa_pairs := mergeFreqLeft_fst_mem hp
    dsimp only at hmem
    cases hfil : judgments.filter
        (fun j => j.question == p.1.question && j.answer == joinKey true p.1.answer) with
    | nil =>
      rw [hfil] at hmem
      rcases List.mem_singleton.mp hmem with rfl
      exact ⟨⟨p.1, hp1, rfl, rfl, rfl⟩, fun pv c hpv _ => Option.noConfusion hpv⟩
    | cons j0 js =>
      rw [hfil] at hmem
      rcases List.mem_map.mp hmem with ⟨j, hj, rfl⟩
      have hj2 : j ∈ judgments.filter
          (fun j => j.question == p.1.question && j.answer == joinKey true p.1.answer) := by
        rw [hfil]
        exact hj
      rcases List.mem_filter.mp hj2 with ⟨hjmem, hjcond⟩
      rw [Bool.and_eq_true] at hjcond
      rcases hjcond with ⟨hjq, hja⟩
      refine ⟨⟨p.1, hp1, rfl, rfl, rfl⟩, ?_⟩
      intro pv c hpv hc
      injection hpv with hpv
      injection hc with hc
      exact ⟨j, hjmem, by simpa using hjq, by simpa using hja, hpv, hc⟩
  · intro hnl
    unfold add_judgments_and_frequencies_to_qa_pairs
    apply List.flatMap_congr
    intro p hp
    have hkey : joinKey true p.1.answer = joinKey false p.1.answer := by
      show stripNewlines p.1.answer = p.1.answer
      exact hnl p.1 (mergeFreqLeft_fst_mem hp)
    simp only [hkey]

/-- C8 (counterexample): a judgment whose answer still contains the newline
fails to attach even though both answers agree after stripping: the code
strips only the system side, and the claimed both-sides stripping would have
matched this pair. -/
theorem add_judgments_one_sided_strip :
    stripNewlines newlineAnswerRow.answer = stripNewlines newlineJudgment.answer ∧
    add_judgments_and_frequencies_to_qa_pairs [newlineAnswerRow] [newlineJudgment] [] true
      = [⟨"q1", "a\nb", 1, none, none, none⟩] := by
  with_unfolding_all decide

/-- C8 (witness): on newline-free answers the normalized join equals the
plain join. -/
theorem add_judgments_newline_handling_witness :
    add_judgments_and_frequencies_to_qa_pairs [plainAnswerRow] [plainJudgment] [] true
      = add_judgments_and_frequencies_to_qa_pairs [plainAnswerRow] [plainJudgment] [] false :=
  (add_judgments_newline_handling [plainAnswerRow] [plainJudgment] []).2
    (by with_unfolding_all decide)

theorem keyCount_eq_one_of_no_dup {aa : List ARow} (hd : ¬hasDupKeys aa = true) :
    ∀ r ∈ aa, keyCount aa r = 1 := by
  intro r hr
  have h1 : 0 < keyCount aa r :=
    List.countP_pos_iff.mpr ⟨r, hr, by simp⟩
  have h2 : ¬2 ≤ keyCount aa r := by
    intro h2
    exact hd (List.any_eq_true.mpr ⟨r, hr, by simpa using h2⟩)
  omega

theorem map_fixpoint {α : Type} {f : α → α} :
    ∀ {l : List α}, l.map f = l → ∀ a ∈ l, f a = a := by
  intro l
  induction l with
  | nil => intro _ a ha; cases ha
  | cons x xs ih =>
    intro h a ha
    injection h with h1 h2
    rcases List.mem_cons.mp ha with rfl | hmem
    · exact h1
    · exact ih h2 a hmem

/-- C9: a judgment row appears in the interpreted output exactly when it is
the interpretation of an input row whose (question, answer) key occurs
exactly once: multiply-judged keys are dropped entirely (no entry is
arbitrarily selected) and singly-judged keys are kept. -/
theorem interpret_drops_duplicates (aa : List ARow) (threshold : ℚ)
    (j : JudgRow) :
    j ∈ interpret_annotation_assist aa threshold ↔
      ∃ r ∈ aa, keyCount aa r = 1 ∧
        j = ⟨r.question, r.answer, r.in_purview_flag != 0,
          decide (threshold ≤ r.score)⟩ := by
  unfold interpret_annotation_assist
  by_cases hd : hasDupKeys aa = true
  · rw [if_pos hd]
    simp only [List.mem_map, List.mem_filter]
    constructor
    · rintro ⟨r, ⟨hr, hcnt⟩, rfl⟩
      exact ⟨r, hr, by simpa using hcnt, rfl⟩
    · rintro ⟨r, hr, hcnt, rfl⟩
      exact ⟨r, ⟨hr, by simpa using hcnt⟩, rfl⟩
  · rw [if_neg hd]
    simp only [List.mem_map]
    constructor
    · rintro ⟨r, hr, rfl⟩
      exact ⟨r, hr, keyCount_eq_one_of_no_dup hd r hr, rfl⟩
    · rintro ⟨r, hr, _, rfl⟩
      exact ⟨r, hr, rfl⟩

/-- C9 (witness): on `dupJudgments` the singly-keyed row (q2, b) is kept. -/
theorem interpret_drops_duplicates_witness :
    (⟨"q2", "b", true, true⟩ : JudgRow) ∈
      interpret_annotation_assist dupJudgments 50 :=
  (interpret_drops_duplicates dupJudgments 50 ⟨"q2", "b", true, true⟩).mpr
    ⟨⟨"q2", "b", 1, 90⟩, by with_unfolding_all decide,
      by with_unfolding_all decide, by with_unfolding_all decide⟩

/-- C10 (counterexample): the two annotate.py functions mutate their
arguments: `interpret_annotation_assist` drops the duplicated rows from the
argument itself, and `add_judgments_and_frequencies_to_qa_pairs` strips
newlines from the argument's answer column, so the argument tables differ
from their pre-call state. -/
theorem annotate_mutates_arguments :
    interpret_annotation_assist_argAfter dupJudgments ≠ dupJudgments ∧
    annotate_add_judgments_argAfter [newlineAnswerRow] ≠ [newlineAnswerRow] := by
  with_unfolding_all decide

/-- C10 (amended): the `annotation_assist` argument is left unchanged by
`interpret_annotation_assist` exactly when no (question, answer) key is
duplicated, and the `system_answers` argument is left unchanged by
annotate.py's `add_judgments_and_frequencies_to_qa_pairs` exactly when no
answer contains a newline; otherwise these two functions mutate their
argument in place. -/
theorem annotate_argument_mutation (aa : List ARow) (sys : List QARow) :
    (interpret_annotation_assist_argAfter aa = aa ↔
      ∀ r ∈ aa, keyCount aa r = 1) ∧
    (annotate_add_judgments_argAfter sys = sys ↔
      ∀ r ∈ sys, stripNewlines r.answer = r.answer) := by
  constructor
  · unfold interpret_annotation_assist_argAfter
    by_cases hd : hasDupKeys aa = true
    · rw [if_pos hd]
      constructor
      · intro heq r hr
        have := List.filter_eq_self.mp heq r hr
        simpa using this
      · intro hall
        rcases List.any_eq_true.mp hd with ⟨r, hr, hcnt⟩
        have h2 : 2 ≤ keyCount aa r := by simpa using hcnt
        have h1 := hall r hr
        omega
    · rw [if_neg hd]
      exact ⟨fun _ => keyCount_eq_one_of_no_dup hd, fun _ => rfl⟩
  · constructor
    · intro heq r hr
      have := map_fixpoint heq r hr
      exact congrArg QARow.answer this
    · intro hall
      unfold annotate_add_judgments_argAfter
      rw [show sys.map (fun r => { r with answer := stripNewlines r.answer }) = sys.map id from ?_, List.map_id]
      apply List.map_congr_left
      intro a ha
      have := hall a ha
      cases a
      simp_all

/-- C10 (witness): a newline-free answer list is left unchanged. -/
theorem annotate_argument_mutation_witness :
    annotate_add_judgments_argAfter [plainAnswerRow] = [plainAnswerRow] :=
  (annotate_argument_mutation dupJudgments [plainAnswerRow]).2.mpr
    (by with_unfolding_all decide)

end Themis
